import Mathlib

/-!
Verification of the transaction categorization, hierarchy rollup and
budget calculation of the financial-tracker program (src/main.go).

Amounts are modelled as exact rationals (the Go code parses decimal
strings into float64; the rational model is exact on every decimal
amount, and the one claim that is genuinely about IEEE non-finite
values uses a dedicated float model, `GoFloat`, below).

Go maps with `+=` access (missing key reads as zero) are modelled as
total functions `String → ℚ` updated pointwise; map iteration order is
unspecified in Go, so code that ranges over a map is modelled as a
function of an arbitrary enumeration (an association list) of the map.
-/

/-- `LedgerAccount` (src/main.go:510-528), restricted to the fields the
categorization and rollup read: `ID`, `Name`, `AccountType`, `ParentID`. -/
structure LedgerAccount where
  id : String
  name : String
  accountType : String
  parentID : Option String
deriving DecidableEq, Repr

/-- `Payment` (src/main.go:531-545), restricted to the fields read by the
categorization loop: `InvoiceType`, `InvoiceID`, `LedgerAccountID` and the
parsed `Price`. -/
structure Payment where
  invoiceType : String
  invoiceID : String
  ledgerAccountID : String
  price : ℚ
deriving DecidableEq, Repr

/-- `LedgerAccountBooking` (src/main.go:548-558), fields read by the loop. -/
structure LedgerAccountBooking where
  ledgerAccountID : String
  price : ℚ
deriving DecidableEq, Repr

/-- `DocumentDetail` (src/main.go:580-584): a document line item. -/
structure DocumentDetail where
  ledgerAccountID : String
  price : ℚ
deriving DecidableEq, Repr

/-- `totals[k] += v` on a Go map (missing key reads as 0). -/
def mapAdd (t : String → ℚ) (k : String) (v : ℚ) : String → ℚ :=
  fun x => if x = k then t x + v else t x

/-- `totals[k] -= v` on a Go map (missing key reads as 0). -/
def mapSub (t : String → ℚ) (k : String) (v : ℚ) : String → ℚ :=
  fun x => if x = k then t x - v else t x

/-- `accountMap[acc.ID] = acc` insertion loop (src/main.go:773-776):
later entries overwrite earlier ones. -/
def buildAccountMap (accounts : List LedgerAccount) : String → Option LedgerAccount :=
  accounts.foldl (fun m a => fun k => if k = a.id then some a else m k) (fun _ => none)

/-- The `omzetAccountID` lookup loop (src/main.go:818-824): the first
account named "Omzet" of type "revenue"; the zero value "" if none matches. -/
def omzetAccountID (accounts : List LedgerAccount) : String :=
  match accounts.find? (fun a => a.name = "Omzet" && a.accountType = "revenue") with
  | some a => a.id
  | none => ""

/-- One `LedgerAccountBooking` iteration of the categorization loop
(src/main.go:876-881): `totals[booking.LedgerAccountID] += amount`. -/
def applyBooking (t : String → ℚ) (b : LedgerAccountBooking) : String → ℚ :=
  mapAdd t b.ledgerAccountID b.price

/-- One `Payment` iteration of the categorization loop (src/main.go:884-913):
`SalesInvoice` adds to the revenue account; `Document` looks the invoice up in
the document cache and, when found, subtracts each line item with a non-empty
account id from that account (skipping the payment entirely when absent);
any other type with a non-empty `LedgerAccountID` adds to that account. -/
def applyPayment (omzetID : String) (cache : String → Option (List DocumentDetail))
    (t : String → ℚ) (p : Payment) : String → ℚ :=
  if p.invoiceType = "SalesInvoice" then
    mapAdd t omzetID p.price
  else if p.invoiceType = "Document" then
    match cache p.invoiceID with
    | some details =>
        details.foldl
          (fun acc d => if d.ledgerAccountID ≠ "" then mapSub acc d.ledgerAccountID d.price else acc)
          t
    | none => t
  else if p.ledgerAccountID ≠ "" then
    mapAdd t p.ledgerAccountID p.price
  else t

/-- The budget constant `vatRate := 0.21` (src/main.go:1009). -/
def vatRate : ℚ := 21 / 100

/-- The budget constant `incomeTaxRate := 0.30` (src/main.go:1010). -/
def incomeTaxRate : ℚ := 30 / 100

/-- `revenueExclVAT := totalRevenue / (1 + vatRate)` (src/main.go:1012). -/
def revenueExclVAT (totalRevenue : ℚ) : ℚ := totalRevenue / (1 + vatRate)

/-- `vatAmount := totalRevenue - revenueExclVAT` (src/main.go:1013). -/
def vatAmount (totalRevenue : ℚ) : ℚ := totalRevenue - revenueExclVAT totalRevenue

/-- `incomeTax := revenueExclVAT * incomeTaxRate` (src/main.go:1014). -/
def incomeTax (totalRevenue : ℚ) : ℚ := revenueExclVAT totalRevenue * incomeTaxRate

/-- `familyBudget := revenueExclVAT - incomeTax + totalBusinessExpenses`
(src/main.go:1015; business expenses are stored negative). -/
def familyBudget (totalRevenue totalBusinessExpenses : ℚ) : ℚ :=
  revenueExclVAT totalRevenue - incomeTax totalRevenue + totalBusinessExpenses

/-- `remaining := familyBudget + totalFamilyExpenses` (src/main.go:1024;
family spending is stored negative). -/
def remaining (fb totalFamilyExpenses : ℚ) : ℚ := fb + totalFamilyExpenses

/-- The manual-revenue override application (src/main.go:1003-1006):
`if *manualRevenue > 0 { totalRevenue = *manualRevenue }`. The flag
(src/main.go:742) defaults to 0 when not supplied. -/
def applyManualRevenue (manualRevenue totalRevenue : ℚ) : ℚ :=
  if 0 < manualRevenue then manualRevenue else totalRevenue

section CategorizationLemmas

/-- Pointwise value of the document-details subtraction fold: the total of a
non-empty account key drops by the sum of that account's line items. -/
lemma detailsFold_apply (details : List DocumentDetail) (t : String → ℚ) (k : String)
    (hk : k ≠ "") :
    (details.foldl
        (fun acc d => if d.ledgerAccountID ≠ "" then mapSub acc d.ledgerAccountID d.price else acc)
        t) k
      = t k - ((details.filter (fun d => d.ledgerAccountID = k)).map (fun d => d.price)).sum := by
  induction details generalizing t with
  | nil => simp
  | cons d rest ih =>
      rw [List.foldl_cons]
      by_cases hdk : d.ledgerAccountID = k
      · have hne : d.ledgerAccountID ≠ "" := by
          rw [hdk]; exact hk
        rw [if_pos hne, ih (mapSub t d.ledgerAccountID d.price),
          List.filter_cons_of_pos (by simpa using hdk), List.map_cons, List.sum_cons]
        simp only [mapSub]
        rw [if_pos hdk.symm]
        ring
      · by_cases hne : d.ledgerAccountID ≠ ""
        · rw [if_pos hne, ih (mapSub t d.ledgerAccountID d.price),
            List.filter_cons_of_neg (by simpa using hdk)]
          simp only [mapSub]
          rw [if_neg (fun h => hdk h.symm)]
        · rw [if_neg hne, ih t, List.filter_cons_of_neg (by simpa using hdk)]

/-- The detail fold never touches the empty-string key. -/
lemma detailsFold_apply_empty (details : List DocumentDetail) (t : String → ℚ) :
    (details.foldl
        (fun acc d => if d.ledgerAccountID ≠ "" then mapSub acc d.ledgerAccountID d.price else acc)
        t) "" = t "" := by
  induction details generalizing t with
  | nil => rfl
  | cons d rest ih =>
      rw [List.foldl_cons]
      by_cases hne : d.ledgerAccountID ≠ ""
      · rw [if_pos hne, ih (mapSub t d.ledgerAccountID d.price)]
        simp only [mapSub]
        rw [if_neg (fun h => hne h.symm)]
      · rw [if_neg hne]
        exact ih t

end CategorizationLemmas

/-- C2: for a payment of kind "Document" whose referenced id is in the
document cache, the categorization engine subtracts, from every non-empty
account key, the summed amounts of that account's line items (and leaves the
empty key alone); when the id is absent from the cache the payment changes no
total at all. -/
theorem documentPayment_subtracts (omz : String)
    (cache : String → Option (List DocumentDetail)) (t : String → ℚ) (p : Payment)
    (hp : p.invoiceType = "Document") :
    (∀ details, cache p.invoiceID = some details →
        (∀ acct, acct ≠ "" →
            applyPayment omz cache t p acct
              = t acct - ((details.filter (fun d => d.ledgerAccountID = acct)).map
                  (fun d => d.price)).sum)
        ∧ applyPayment omz cache t p "" = t "")
    ∧ (cache p.invoiceID = none → applyPayment omz cache t p = t) := by
  have hns : ¬ p.invoiceType = "SalesInvoice" := by
    rw [hp]; decide
  constructor
  · intro details hdet
    constructor
    · intro acct hacct
      rw [applyPayment, if_neg hns, if_pos hp, hdet]
      exact detailsFold_apply details t acct hacct
    · rw [applyPayment, if_neg hns, if_pos hp, hdet]
      exact detailsFold_apply_empty details t
  · intro hnone
    rw [applyPayment, if_neg hns, if_pos hp, hnone]

/-- Witness for C2: a cached document with line items [(A, 100), (B, 50)]
drops account A's total by 100 and account B's total by 50, and an uncached
payment changes nothing. -/
theorem documentPayment_subtracts_witness :
    applyPayment "omz"
        (fun i => if i = "doc1" then some [⟨"A", 100⟩, ⟨"B", 50⟩] else none)
        (fun _ => 7) ⟨"Document", "doc1", "", 150⟩ "A" = 7 - 100
    ∧ applyPayment "omz"
        (fun i => if i = "doc1" then some [⟨"A", 100⟩, ⟨"B", 50⟩] else none)
        (fun _ => 7) ⟨"Document", "doc1", "", 150⟩ "B" = 7 - 50
    ∧ applyPayment "omz"
        (fun i => if i = "doc1" then some [⟨"A", 100⟩, ⟨"B", 50⟩] else none)
        (fun _ => 7) ⟨"Document", "missing", "", 150⟩ = (fun _ => 7) := by
  have h := documentPayment_subtracts "omz"
    (fun i => if i = "doc1" then some [⟨"A", 100⟩, ⟨"B", 50⟩] else none)
    (fun _ => 7) ⟨"Document", "doc1", "", 150⟩ rfl
  have hmiss := documentPayment_subtracts "omz"
    (fun i => if i = "doc1" then some [⟨"A", 100⟩, ⟨"B", 50⟩] else none)
    (fun _ => 7) ⟨"Document", "missing", "", 150⟩ rfl
  refine ⟨?_, ?_, ?_⟩
  · rw [(h.1 [⟨"A", 100⟩, ⟨"B", 50⟩] rfl).1 "A" (by decide)]
    simp [List.filter]
  · rw [(h.1 [⟨"A", 100⟩, ⟨"B", 50⟩] rfl).1 "B" (by decide)]
    simp [List.filter]
  · exact hmiss.2 rfl

/-- Counterexample to C3: with an account table containing no account named
"Omzet" of kind revenue, the program does not stop — `omzetAccountID` is the
empty string and a SalesInvoice payment of 100 is accumulated under the
empty-string key (the total at key "" becomes 100 ≠ 0). -/
theorem missingOmzet_accumulates_under_empty_key :
    omzetAccountID [⟨"1", "Huur", "equity", none⟩] = ""
    ∧ applyPayment (omzetAccountID [⟨"1", "Huur", "equity", none⟩]) (fun _ => none)
        (fun _ => 0) ⟨"SalesInvoice", "s1", "", 100⟩ ""
      = 100
    ∧ (100 : ℚ) ≠ 0 := by
  refine ⟨rfl, ?_, by norm_num⟩
  rw [applyPayment, if_pos rfl]
  simp [omzetAccountID, mapAdd, List.find?]

/-- C3 as amended: when no loaded account matches name "Omzet" and kind
"revenue", the run proceeds with `omzetAccountID` left as the empty string,
and every SalesInvoice payment amount is accumulated under the empty-string
key of Category Totals (other keys unchanged); no fatal error occurs. -/
theorem missingOmzet_behaviour (accounts : List LedgerAccount)
    (h : ∀ a ∈ accounts, ¬(a.name = "Omzet" ∧ a.accountType = "revenue")) :
    omzetAccountID accounts = ""
    ∧ ∀ (cache : String → Option (List DocumentDetail)) (t : String → ℚ) (p : Payment),
        p.invoiceType = "SalesInvoice" →
        ∀ k, applyPayment (omzetAccountID accounts) cache t p k
              = if k = "" then t k + p.price else t k := by
  have hfind : accounts.find? (fun a => a.name = "Omzet" && a.accountType = "revenue") = none := by
    rw [List.find?_eq_none]
    intro a ha
    have := h a ha
    simp only [Bool.and_eq_true, decide_eq_true_eq]
    intro hcontra
    exact this hcontra
  have homz : omzetAccountID accounts = "" := by
    rw [omzetAccountID, hfind]
  refine ⟨homz, ?_⟩
  intro cache t p hp k
  rw [applyPayment, if_pos hp, homz, mapAdd]

/-- Witness for C3 (amended): the concrete Omzet-free table and a
SalesInvoice payment of 100. -/
theorem missingOmzet_behaviour_witness :
    omzetAccountID [⟨"1", "Huur", "equity", none⟩] = ""
    ∧ applyPayment (omzetAccountID [⟨"1", "Huur", "equity", none⟩]) (fun _ => none)
        (fun _ => 3) ⟨"SalesInvoice", "s1", "", 100⟩ "" = 3 + 100 := by
  have h := missingOmzet_behaviour [⟨"1", "Huur", "equity", none⟩]
    (by intro a ha; fin_cases ha; simp)
  refine ⟨h.1, ?_⟩
  rw [h.2 (fun _ => none) (fun _ => 3) ⟨"SalesInvoice", "s1", "", 100⟩ rfl ""]
  simp

/-- Counterexample to C6: the supplied override −5 is not used — the code
only applies the override when strictly positive, so the computed revenue
total (100) is used instead. -/
theorem manualRevenue_negative_ignored :
    applyManualRevenue (-5) 100 = 100 ∧ applyManualRevenue (-5) 100 ≠ -5 := by
  constructor
  · rw [applyManualRevenue, if_neg (by norm_num)]
  · rw [applyManualRevenue, if_neg (by norm_num)]
    norm_num

/-- C6 as amended: a supplied override is used exclusively as gross revenue
in the budget formulas only when it is strictly positive; in that case the
computed revenue total does not influence any budget figure (a zero or
negative flag value is ignored and the computed total is used). -/
theorem manualRevenue_positive_wins (m c c' e : ℚ) (hm : 0 < m) :
    applyManualRevenue m c = m
    ∧ familyBudget (applyManualRevenue m c) e = familyBudget (applyManualRevenue m c') e
    ∧ revenueExclVAT (applyManualRevenue m c) = revenueExclVAT (applyManualRevenue m c')
    ∧ vatAmount (applyManualRevenue m c) = vatAmount (applyManualRevenue m c')
    ∧ incomeTax (applyManualRevenue m c) = incomeTax (applyManualRevenue m c') := by
  have h : ∀ x : ℚ, applyManualRevenue m x = m := fun x => by
    rw [applyManualRevenue, if_pos hm]
  rw [h c, h c']
  exact ⟨rfl, rfl, rfl, rfl, rfl⟩

/-- Witness for C6 (amended): override 5 against computed totals 100 and 0. -/
theorem manualRevenue_positive_wins_witness :
    applyManualRevenue 5 100 = 5
    ∧ familyBudget (applyManualRevenue 5 100) (-2)
        = familyBudget (applyManualRevenue 5 0) (-2) :=
  ⟨(manualRevenue_positive_wins 5 100 0 (-2) (by norm_num)).1,
   (manualRevenue_positive_wins 5 100 0 (-2) (by norm_num)).2.1⟩

/-- Counterexample to C7: at gross revenue 12850.20 the code's
`revenueExclVAT` is exactly 10620, which is not within 0.01 of the claimed
10619.17 (and consequently the claimed 3185.75 and 5433.42 are off as well). -/
theorem budget_figures_claimed_values_wrong :
    revenueExclVAT (1285020 / 100) = 10620
    ∧ ¬ |revenueExclVAT (1285020 / 100) - 1061917 / 100| ≤ 1 / 100 := by
  have h : revenueExclVAT (1285020 / 100) = 10620 := by
    rw [revenueExclVAT, vatRate]
    norm_num
  refine ⟨h, ?_⟩
  rw [h]
  rw [abs_le]
  norm_num

/-- C7 as amended: the Budget Calculator is a pure function of
(gross revenue, business-expense total) with vat_rate = 0.21 and
income_tax_rate = 0.30, computing revenue_excl_vat = gross/(1+vat_rate),
vat_amount = gross − revenue_excl_vat, income_tax = revenue_excl_vat·0.30,
family_budget = revenue_excl_vat − income_tax + business_expense_total and
remaining = family_budget + family_spending_total; for gross = 12850.20 and
business-expense total = −2000 it yields revenue_excl_vat = 10620.00,
income_tax = 3186.00 and family_budget = 5434.00 (all within 0.01). -/
theorem budget_figures_formulas :
    (∀ R E S : ℚ,
        vatRate = 21 / 100
        ∧ incomeTaxRate = 30 / 100
        ∧ revenueExclVAT R = R / (1 + vatRate)
        ∧ vatAmount R = R - revenueExclVAT R
        ∧ incomeTax R = revenueExclVAT R * incomeTaxRate
        ∧ familyBudget R E = revenueExclVAT R - incomeTax R + E
        ∧ remaining (familyBudget R E) S = familyBudget R E + S)
    ∧ |revenueExclVAT (1285020 / 100) - 10620| ≤ 1 / 100
    ∧ |incomeTax (1285020 / 100) - 3186| ≤ 1 / 100
    ∧ |familyBudget (1285020 / 100) (-2000) - 5434| ≤ 1 / 100 := by
  have hrev : revenueExclVAT (1285020 / 100) = 10620 := by
    rw [revenueExclVAT, vatRate]; norm_num
  have htax : incomeTax (1285020 / 100) = 3186 := by
    rw [incomeTax, hrev, incomeTaxRate]; norm_num
  refine ⟨fun R E S => ⟨rfl, rfl, rfl, rfl, rfl, rfl, rfl⟩, ?_, ?_, ?_⟩
  · rw [hrev]; norm_num
  · rw [htax]; norm_num
  · rw [familyBudget, hrev, htax]; norm_num

/-!  IEEE-float model for the percentage computation (claim about
non-finite values).  `GoFloat` abstracts Go's float64 as an exact
rational together with the IEEE special values; rounding is elided
(irrelevant here), while the zero-divisor and infinity rules of IEEE 754
division and multiplication are kept exactly. -/

/-- A Go `float64` value: a finite rational, ±infinity, or NaN. -/
inductive GoFloat where
  | fin : ℚ → GoFloat
  | inf : GoFloat
  | neginf : GoFloat
  | nan : GoFloat
deriving DecidableEq, Repr

namespace GoFloat

/-- IEEE 754 division on the model (signed zero elided: the Go code's
divisor is a computed sum whose zero is +0). -/
def div : GoFloat → GoFloat → GoFloat
  | fin a, fin b =>
      if b = 0 then (if 0 < a then inf else if a < 0 then neginf else nan)
      else fin (a / b)
  | fin _, inf => fin 0
  | fin _, neginf => fin 0
  | inf, fin b => if b < 0 then neginf else inf
  | neginf, fin b => if b < 0 then inf else neginf
  | inf, inf => nan
  | inf, neginf => nan
  | neginf, inf => nan
  | neginf, neginf => nan
  | nan, _ => nan
  | _, nan => nan

/-- IEEE 754 multiplication on the model. -/
def mul : GoFloat → GoFloat → GoFloat
  | fin a, fin b => fin (a * b)
  | fin a, inf => if 0 < a then inf else if a < 0 then neginf else nan
  | fin a, neginf => if 0 < a then neginf else if a < 0 then inf else nan
  | inf, fin b => if 0 < b then inf else if b < 0 then neginf else nan
  | neginf, fin b => if 0 < b then neginf else if b < 0 then inf else nan
  | inf, inf => inf
  | inf, neginf => neginf
  | neginf, inf => neginf
  | neginf, neginf => inf
  | nan, _ => nan
  | _, nan => nan

/-- Whether the value is an ordinary (finite) number. -/
def isFinite : GoFloat → Bool
  | fin _ => true
  | _ => false

end GoFloat

/-- `percentageUsed := (totalFamilyExpenses / familyBudget) * 100`
(src/main.go:1025), computed on float64 with no guard on the divisor. -/
def percentageUsed (totalFamilyExpenses familyBudget : GoFloat) : GoFloat :=
  (totalFamilyExpenses.div familyBudget).mul (GoFloat.fin 100)

/-- C4 fails on the code: with `familyBudget = 0` (e.g. zero revenue and no
business expenses) and family spending −500, the unguarded division produces
the non-finite value −∞, not an explicit undefined/zero state (with zero
spending it produces NaN). -/
theorem percentageUsed_zero_budget_nonfinite :
    percentageUsed (GoFloat.fin (-500)) (GoFloat.fin 0) = GoFloat.neginf
    ∧ (percentageUsed (GoFloat.fin (-500)) (GoFloat.fin 0)).isFinite = false
    ∧ percentageUsed (GoFloat.fin 0) (GoFloat.fin 0) = GoFloat.nan := by
  refine ⟨?_, ?_, ?_⟩ <;>
    norm_num [percentageUsed, GoFloat.div, GoFloat.mul, GoFloat.isFinite]

/-- The root-totals print loop (src/main.go:960-962) and the pie-chart value
loop (src/main.go:1064-1073) emit the `(name, amount)` pairs of `rootTotals`
one by one, in the order the map enumeration supplies them, with no sorting
step. -/
def reportLines (rootTotals : List (String × ℚ)) : List (String × ℚ) :=
  rootTotals.foldl (fun out p => out ++ [p]) []

/-- The lines emitted are exactly the enumeration, in its order. -/
lemma reportLines_eq (rootTotals : List (String × ℚ)) :
    reportLines rootTotals = rootTotals := by
  have h : ∀ (l acc : List (String × ℚ)),
      l.foldl (fun out p => out ++ [p]) acc = acc ++ l := by
    intro l
    induction l with
    | nil => intro acc; simp
    | cons p t ih => intro acc; simp [ih]
  simpa using h rootTotals []

/-- Sorted by descending absolute magnitude, largest first. -/
def sortedByAbsDesc (l : List (String × ℚ)) : Prop :=
  l.Pairwise (fun p q => |q.2| ≤ |p.2|)

/-- C5 fails on the code: a possible map enumeration of the Root Totals
mapping (X ↦ −10, Y ↦ −500) is emitted as-is — the output pairs are
not sorted by descending absolute amount (|−500| > |−10| yet Y comes last);
no consumer sorts them. -/
theorem reportLines_not_sorted :
    reportLines [("X", -10), ("Y", -500)] = [("X", -10), ("Y", -500)]
    ∧ ¬ sortedByAbsDesc (reportLines [("X", -10), ("Y", -500)]) := by
  refine ⟨reportLines_eq _, ?_⟩
  rw [reportLines_eq]
  intro hsort
  rcases List.pairwise_cons.mp hsort with ⟨hrel, -⟩
  have h := hrel ("Y", -500) (by simp)
  rw [show |((("Y", (-500:ℚ))).2)| = 500 by norm_num,
    show |((("X", (-10:ℚ))).2)| = 10 by norm_num] at h
  norm_num at h

/-!  The parent-chain walk of the Hierarchy Aggregator
(src/main.go:946-952, repeated verbatim at src/main.go:1052-1058). -/

/-- One test of the walk's loop: `none` when the loop is about to stop
(no parent id, empty parent id, or parent id absent from the account map —
the code's `break`), otherwise the parent account the loop moves to. -/
def stepOpt (m : String → Option LedgerAccount) (a : LedgerAccount) :
    Option LedgerAccount :=
  match a.parentID with
  | none => none
  | some pid => if pid = "" then none else m pid

/-- The walk as the code writes it, bounded by explicit fuel (the code's
loop is unbounded; `rootWalk m n a` is the state after at most `n`
iterations, stationary once the loop's exit condition holds). -/
def rootWalk (m : String → Option LedgerAccount) : Nat → LedgerAccount → LedgerAccount
  | 0, a => a
  | Nat.succ n, a =>
      match stepOpt m a with
      | none => a
      | some p => rootWalk m n p

/-- The walk's step as a relation: `a`'s parent pointer resolves to `b`. -/
def stepRel (m : String → Option LedgerAccount) (a b : LedgerAccount) : Prop :=
  stepOpt m a = some b

/-- A cyclic account table: A's parent is B and B's parent is A. -/
def accA : LedgerAccount := ⟨"A", "A", "equity", some "B"⟩

/-- The other half of the cycle. -/
def accB : LedgerAccount := ⟨"B", "B", "equity", some "A"⟩

/-- The account map built from the cyclic table. -/
def mCyc : String → Option LedgerAccount := buildAccountMap [accA, accB]

lemma mCyc_A : mCyc "A" = some accA := by
  decide

lemma mCyc_B : mCyc "B" = some accB := by
  decide

lemma stepOpt_accA : stepOpt mCyc accA = some accB := by
  rw [stepOpt]
  show (if "B" = "" then none else mCyc "B") = some accB
  rw [if_neg (by decide), mCyc_B]

lemma stepOpt_accB : stepOpt mCyc accB = some accA := by
  rw [stepOpt]
  show (if "A" = "" then none else mCyc "A") = some accA
  rw [if_neg (by decide), mCyc_A]

lemma rootWalk_cyc_mem (n : Nat) :
    (rootWalk mCyc n accA = accA ∨ rootWalk mCyc n accA = accB)
    ∧ (rootWalk mCyc n accB = accA ∨ rootWalk mCyc n accB = accB) := by
  induction n with
  | zero => exact ⟨Or.inl rfl, Or.inr rfl⟩
  | succ n ih =>
      constructor
      · rw [rootWalk, stepOpt_accA]
        exact ih.2
      · rw [rootWalk, stepOpt_accB]
        exact ih.1

/-- C1 fails on the code: on the cyclic table (A ↦ parent B, B ↦ parent A)
the walk's loop condition still holds after every number `n` of iterations —
the parent-chain walk never reaches an exit state, so the loop does not
terminate (there is no visited-set guard or depth bound in the code). -/
theorem cyclicWalk_never_exits (n : Nat) :
    stepOpt mCyc (rootWalk mCyc n accA) ≠ none := by
  rcases (rootWalk_cyc_mem n).1 with h | h <;> rw [h]
  · rw [stepOpt_accA]
    exact Option.some_ne_none _
  · rw [stepOpt_accB]
    exact Option.some_ne_none _

/-!  The Period Chunker (src/main.go:782-809).  Dates are modelled as
integers counting days: Go's `AddDate(0, 0, d)` adds exactly `d` days and
`Before`/`Equal`/`After` compare chronologically, so the loop is a function
of day numbers only. -/

/-- The chunk loop: while `currentStart ≤ monthEnd`, emit
`(currentStart, min (currentStart+6) monthEnd)` and restart from the day
after the chunk's end. -/
def chunkFrom (s e : ℤ) : List (ℤ × ℤ) :=
  if h : s ≤ e then
    (s, min (s + 6) e) :: chunkFrom (min (s + 6) e + 1) e
  else []
termination_by (e + 1 - s).toNat
decreasing_by
  omega

lemma chunkFrom_of_le {s e : ℤ} (h : s ≤ e) :
    chunkFrom s e = (s, min (s + 6) e) :: chunkFrom (min (s + 6) e + 1) e := by
  conv_lhs => unfold chunkFrom
  rw [dif_pos h]

lemma chunkFrom_of_gt {s e : ℤ} (h : ¬ s ≤ e) : chunkFrom s e = [] := by
  conv_lhs => unfold chunkFrom
  rw [dif_neg h]

lemma chunkFrom_length (s e : ℤ) :
    (chunkFrom s e).length = ((e + 1 - s).toNat + 6) / 7 := by
  by_cases h : s ≤ e
  · rw [chunkFrom_of_le h, List.length_cons,
      chunkFrom_length (min (s + 6) e + 1) e]
    omega
  · rw [chunkFrom_of_gt h]
    simp
    omega
termination_by (e + 1 - s).toNat
decreasing_by
  omega

lemma chunkFrom_bounds (s e : ℤ) :
    ∀ p ∈ chunkFrom s e, s ≤ p.1 ∧ p.1 ≤ p.2 ∧ p.2 - p.1 ≤ 6 ∧ p.2 ≤ e := by
  by_cases h : s ≤ e
  · rw [chunkFrom_of_le h]
    intro p hp
    rcases List.mem_cons.mp hp with hp | hp
    · subst hp
      constructor
      · exact le_refl s
      constructor
      · exact le_min (by omega) h
      constructor
      · omega
      · exact min_le_right _ _
    · have := chunkFrom_bounds (min (s + 6) e + 1) e p hp
      omega
  · rw [chunkFrom_of_gt h]
    intro p hp
    exact absurd hp (List.not_mem_nil p)
termination_by (e + 1 - s).toNat
decreasing_by
  omega

lemma chunkFrom_pairwise (s e : ℤ) :
    (chunkFrom s e).Pairwise (fun p q => p.2 < q.1) := by
  by_cases h : s ≤ e
  · rw [chunkFrom_of_le h]
    refine List.pairwise_cons.mpr ⟨?_, chunkFrom_pairwise (min (s + 6) e + 1) e⟩
    intro q hq
    have := chunkFrom_bounds (min (s + 6) e + 1) e q hq
    omega
  · rw [chunkFrom_of_gt h]
    exact List.Pairwise.nil
termination_by (e + 1 - s).toNat
decreasing_by
  omega

lemma chunkFrom_chain (s e : ℤ) :
    (chunkFrom s e).Chain' (fun p q => q.1 = p.2 + 1) := by
  by_cases h : s ≤ e
  · rw [chunkFrom_of_le h]
    rw [List.chain'_cons']
    refine ⟨?_, chunkFrom_chain (min (s + 6) e + 1) e⟩
    intro q hq
    by_cases h2 : min (s + 6) e + 1 ≤ e
    · rw [chunkFrom_of_le h2] at hq
      simp only [List.head?_cons, Option.mem_def, Option.some.injEq] at hq
      rw [show q = (min (s + 6) e + 1, min (min (s + 6) e + 1 + 6) e) from hq.symm]
    · rw [chunkFrom_of_gt h2] at hq
      simp at hq
  · rw [chunkFrom_of_gt h]
    exact List.chain'_nil
termination_by (e + 1 - s).toNat
decreasing_by
  omega

lemma chunkFrom_cover (s e : ℤ) (d : ℤ) :
    (∃ p ∈ chunkFrom s e, p.1 ≤ d ∧ d ≤ p.2) ↔ (s ≤ d ∧ d ≤ e) := by
  by_cases h : s ≤ e
  · rw [chunkFrom_of_le h]
    constructor
    · rintro ⟨p, hp, hp1, hp2⟩
      rcases List.mem_cons.mp hp with hpc | hpc
      · subst hpc
        simp only [min_le_iff] at hp2
        constructor
        · exact hp1
        · omega
      · have hb := chunkFrom_bounds (min (s + 6) e + 1) e p hpc
        omega
    · rintro ⟨hd1, hd2⟩
      by_cases hin : d ≤ min (s + 6) e
      · exact ⟨(s, min (s + 6) e), List.mem_cons_self _ _, hd1, hin⟩
      · have := (chunkFrom_cover (min (s + 6) e + 1) e d).mpr (by omega)
        rcases this with ⟨p, hp, h1, h2⟩
        exact ⟨p, List.mem_cons_of_mem _ hp, h1, h2⟩
  · rw [chunkFrom_of_gt h]
    simp
    omega
termination_by (e + 1 - s).toNat
decreasing_by
  omega

/-- C8: the Period Chunker yields the empty sequence when start > end (not an
error); the number of sub-ranges is exactly ⌈N/7⌉ for an N-day range (the
Nat expression `(N+6)/7`); every sub-range is well-formed, spans at most 7
calendar days and lies inside the input range; the sub-ranges are pairwise
non-overlapping and contiguous (each starts the day after the previous ends);
and together they cover exactly the days of the input range. -/
theorem periodChunker_correct (s e : ℤ) :
    (e < s → chunkFrom s e = [])
    ∧ (chunkFrom s e).length = ((e + 1 - s).toNat + 6) / 7
    ∧ (∀ p ∈ chunkFrom s e, s ≤ p.1 ∧ p.1 ≤ p.2 ∧ p.2 - p.1 ≤ 6 ∧ p.2 ≤ e)
    ∧ (chunkFrom s e).Pairwise (fun p q => p.2 < q.1)
    ∧ (chunkFrom s e).Chain' (fun p q => q.1 = p.2 + 1)
    ∧ (∀ d : ℤ, (∃ p ∈ chunkFrom s e, p.1 ≤ d ∧ d ≤ p.2) ↔ (s ≤ d ∧ d ≤ e)) :=
  ⟨fun h => chunkFrom_of_gt (by omega), chunkFrom_length s e, chunkFrom_bounds s e,
    chunkFrom_pairwise s e, chunkFrom_chain s e, chunkFrom_cover s e⟩


/-!  The Hierarchy Aggregator's rollup (src/main.go:932-963; repeated for
the chart at src/main.go:1047-1061).  The Go code iterates the `totals`
map; `entries` below is an arbitrary enumeration of that map. -/

/-- One iteration of the rollup loop body (src/main.go:938-956) acting on
the `rootTotals` map: for an entry whose account exists in the map and is
of type "equity", walk the parent chain and add the entry's total under
the root's display name; otherwise leave the map unchanged. -/
def rollupStep (m : String → Option LedgerAccount) (fuel : Nat)
    (rt : String → ℚ) (p : String × ℚ) : String → ℚ :=
  match m p.1 with
  | some a =>
      if a.accountType = "equity" then mapAdd rt (rootWalk m fuel a).name p.2 else rt
  | none => rt

/-- The `rootTotals` map built by the rollup loop (src/main.go:936-957). -/
def rootTotalsGo (m : String → Option LedgerAccount) (fuel : Nat)
    (entries : List (String × ℚ)) : String → ℚ :=
  entries.foldl (rollupStep m fuel) (fun _ => 0)

/-- `totalFamilyExpenses += total` accumulation (src/main.go:938-940): sums
the totals of entries whose account exists in the map and is of type
"equity". -/
def totalFamilyExpenses (m : String → Option LedgerAccount)
    (entries : List (String × ℚ)) : ℚ :=
  entries.foldl
    (fun acc p =>
      match m p.1 with
      | some a => if a.accountType = "equity" then acc + p.2 else acc
      | none => acc)
    0

/-- The name an entry's total is accumulated under: the walked root's
display name for equity accounts in the table, nothing otherwise. -/
def equityRootName (m : String → Option LedgerAccount) (fuel : Nat) (i : String) :
    Option String :=
  match m i with
  | some a => if a.accountType = "equity" then some (rootWalk m fuel a).name else none
  | none => none

/-- The (root name, amount) contributions of the rollup loop, one per
equity entry, in loop order. -/
def rootContribs (m : String → Option LedgerAccount) (fuel : Nat)
    (entries : List (String × ℚ)) : List (String × ℚ) :=
  entries.filterMap (fun p => (equityRootName m fuel p.1).map (fun n => (n, p.2)))

/-- The key set of the finished `rootTotals` map, as the rollup builds it. -/
def rootNames (m : String → Option LedgerAccount) (fuel : Nat)
    (entries : List (String × ℚ)) : List String :=
  ((rootContribs m fuel entries).map Prod.fst).dedup

section RollupGrouping

/-- The loop body, written through `equityRootName`. -/
lemma rollupStep_eq (m : String → Option LedgerAccount) (fuel : Nat)
    (rt : String → ℚ) (p : String × ℚ) :
    rollupStep m fuel rt p
      = match equityRootName m fuel p.1 with
        | some n => mapAdd rt n p.2
        | none => rt := by
  rw [rollupStep, equityRootName]
  cases hm : m p.1 with
  | none => rfl
  | some a =>
      by_cases heq : a.accountType = "equity"
      · simp [heq]
      · simp [heq]

/-- The contribution list of one more entry. -/
lemma rootContribs_cons (m : String → Option LedgerAccount) (fuel : Nat)
    (p : String × ℚ) (t : List (String × ℚ)) :
    rootContribs m fuel (p :: t)
      = match equityRootName m fuel p.1 with
        | some n => (n, p.2) :: rootContribs m fuel t
        | none => rootContribs m fuel t := by
  rw [rootContribs, List.filterMap_cons]
  cases hq : equityRootName m fuel p.1 with
  | none => rfl
  | some n => rfl

/-- Value of a fold of `mapAdd` updates at one key: initial value plus the
contributions recorded for that key. -/
lemma foldl_mapAdd_apply (l : List (String × ℚ)) (f : String → ℚ) (k : String) :
    (l.foldl (fun g p => mapAdd g p.1 p.2) f) k
      = f k + ((l.filter (fun p => p.1 = k)).map Prod.snd).sum := by
  induction l generalizing f with
  | nil => simp
  | cons p t ih =>
      rw [List.foldl_cons, ih (mapAdd f p.1 p.2)]
      by_cases hpk : p.1 = k
      · rw [List.filter_cons_of_pos (by simpa using hpk), List.map_cons, List.sum_cons]
        simp only [mapAdd]
        rw [if_pos hpk.symm]
        ring
      · rw [List.filter_cons_of_neg (by simpa using hpk)]
        simp only [mapAdd]
        rw [if_neg (fun h => hpk h.symm)]

/-- The rollup loop is the fold of `mapAdd` over its contribution list. -/
lemma rootTotalsGo_eq_fold (m : String → Option LedgerAccount) (fuel : Nat)
    (entries : List (String × ℚ)) (f : String → ℚ) :
    entries.foldl (rollupStep m fuel) f
      = (rootContribs m fuel entries).foldl (fun g p => mapAdd g p.1 p.2) f := by
  induction entries generalizing f with
  | nil => rfl
  | cons p t ih =>
      rw [List.foldl_cons, rollupStep_eq, rootContribs_cons]
      cases hq : equityRootName m fuel p.1 with
      | none => exact ih f
      | some n =>
          rw [List.foldl_cons]
          exact ih (mapAdd f n p.2)

/-- Pointwise value of the finished `rootTotals` map. -/
lemma rootTotalsGo_apply (m : String → Option LedgerAccount) (fuel : Nat)
    (entries : List (String × ℚ)) (k : String) :
    rootTotalsGo m fuel entries k
      = (((rootContribs m fuel entries).filter (fun p => p.1 = k)).map Prod.snd).sum := by
  rw [rootTotalsGo, rootTotalsGo_eq_fold, foldl_mapAdd_apply]
  simp

/-- The per-key contribution sum, written over the original entries. -/
lemma contribs_filter_sum (m : String → Option LedgerAccount) (fuel : Nat)
    (entries : List (String × ℚ)) (k : String) :
    (((rootContribs m fuel entries).filter (fun p => p.1 = k)).map Prod.snd).sum
      = (entries.map (fun p => if equityRootName m fuel p.1 = some k then p.2 else 0)).sum := by
  induction entries with
  | nil => rfl
  | cons p t ih =>
      rw [rootContribs_cons, List.map_cons, List.sum_cons]
      cases hq : equityRootName m fuel p.1 with
      | none =>
          rw [ih]
          simp
      | some n =>
          by_cases hnk : n = k
          · rw [List.filter_cons_of_pos (by simpa using hnk), List.map_cons, List.sum_cons,
              ih, if_pos (by rw [hnk])]
          · rw [List.filter_cons_of_neg (by simpa using hnk), ih,
              if_neg (by simpa using hnk), zero_add]

/-- Sum of the snd components of the contribution list equals the
family-expense total. -/
lemma contribs_snd_sum (m : String → Option LedgerAccount) (fuel : Nat)
    (entries : List (String × ℚ)) :
    ((rootContribs m fuel entries).map Prod.snd).sum = totalFamilyExpenses m entries := by
  have hstep : ∀ (acc : ℚ) (p : String × ℚ),
      (match m p.1 with
        | some a => if a.accountType = "equity" then acc + p.2 else acc
        | none => acc)
        = match equityRootName m fuel p.1 with
          | some _ => acc + p.2
          | none => acc := by
    intro acc p
    rw [equityRootName]
    cases hm : m p.1 with
    | none => rfl
    | some a =>
        by_cases heq : a.accountType = "equity"
        · simp [heq]
        · simp [heq]
  have h : ∀ (l : List (String × ℚ)) (acc : ℚ),
      l.foldl
          (fun acc p =>
            match m p.1 with
            | some a => if a.accountType = "equity" then acc + p.2 else acc
            | none => acc)
          acc
        = acc + ((rootContribs m fuel l).map Prod.snd).sum := by
    intro l
    induction l with
    | nil => intro acc; simp [rootContribs]
    | cons p t ih =>
        intro acc
        rw [List.foldl_cons, hstep acc p, rootContribs_cons]
        cases hq : equityRootName m fuel p.1 with
        | none => exact ih acc
        | some n =>
            rw [ih (acc + p.2), List.map_cons, List.sum_cons]
            ring
  rw [totalFamilyExpenses, h entries 0, zero_add]

/-- Summing an indicator over a duplicate-free key list that contains the
key picks out the single value. -/
lemma sum_ite_single (K : List String) (x : String) (v : ℚ) (hK : K.Nodup)
    (hx : x ∈ K) :
    (K.map (fun k => if x = k then v else 0)).sum = v := by
  induction K with
  | nil => exact absurd hx (List.not_mem_nil x)
  | cons k K ih =>
      rw [List.map_cons, List.sum_cons]
      rcases List.mem_cons.mp hx with hxk | hxK
      · rw [if_pos hxk]
        have hzero : (K.map (fun k => if x = k then v else 0)).sum = 0 := by
          apply List.sum_eq_zero
          intro y hy
          rcases List.mem_map.mp hy with ⟨k2, hk2, hval⟩
          have hxk2 : x ≠ k2 := by
            intro hcontra
            have hkK : k ∈ K := by
              rw [← hxk, hcontra]; exact hk2
            exact (List.nodup_cons.mp hK).1 hkK
          rw [if_neg hxk2] at hval
          exact hval.symm
        rw [hzero, add_zero]
      · have hxk : x ≠ k := by
          intro hcontra
          exact (List.nodup_cons.mp hK).1 (hcontra ▸ hxK)
        rw [if_neg hxk, zero_add]
        exact ih (List.nodup_cons.mp hK).2 hxK

/-- Partition: summing the per-key filtered sums over a duplicate-free key
list covering all keys reproduces the total sum. -/
lemma sum_filter_partition (K : List String) (l : List (String × ℚ)) (hK : K.Nodup)
    (hl : ∀ p ∈ l, p.1 ∈ K) :
    (K.map (fun k => ((l.filter (fun p => p.1 = k)).map Prod.snd).sum)).sum
      = (l.map Prod.snd).sum := by
  induction l with
  | nil => simp
  | cons p t ih =>
      have hsplit : ∀ k ∈ K,
          (((p :: t).filter (fun q => q.1 = k)).map Prod.snd).sum
            = (if p.1 = k then p.2 else 0)
              + ((t.filter (fun q => q.1 = k)).map Prod.snd).sum := by
        intro k _
        by_cases hpk : p.1 = k
        · rw [List.filter_cons_of_pos (by simpa using hpk), List.map_cons, List.sum_cons,
            if_pos hpk]
        · rw [List.filter_cons_of_neg (by simpa using hpk), if_neg hpk, zero_add]
      rw [List.map_congr_left hsplit, List.sum_map_add, sum_ite_single K p.1 p.2 hK
        (hl p (List.mem_cons_self p t)), ih (fun q hq => hl q (List.mem_cons_of_mem p hq)),
        List.map_cons, List.sum_cons]

end RollupGrouping

section WalkSoundness

/-- The walk only ever follows the parent-pointer relation. -/
lemma rootWalk_reaches (m : String → Option LedgerAccount) (n : Nat) (a : LedgerAccount) :
    Relation.ReflTransGen (stepRel m) a (rootWalk m n a) := by
  induction n generalizing a with
  | zero => exact Relation.ReflTransGen.refl
  | succ n ih =>
      rw [rootWalk]
      cases hs : stepOpt m a with
      | none => exact Relation.ReflTransGen.refl
      | some p => exact Relation.ReflTransGen.head hs (ih p)

/-- An account at which the loop exits walks nowhere. -/
lemma rootWalk_of_exit (m : String → Option LedgerAccount) (n : Nat)
    (a : LedgerAccount) (ha : stepOpt m a = none) : rootWalk m n a = a := by
  cases n with
  | zero => rfl
  | succ n => rw [rootWalk, ha]

/-- Adding fuel after the loop exits changes nothing. -/
lemma rootWalk_add (m : String → Option LedgerAccount) (n1 n2 : Nat)
    (a : LedgerAccount) :
    rootWalk m (n1 + n2) a = rootWalk m n2 (rootWalk m n1 a) := by
  induction n1 generalizing a with
  | zero => rw [Nat.zero_add]; rfl
  | succ n1 ih =>
      rw [show n1 + 1 + n2 = (n1 + n2) + 1 from by omega, rootWalk, rootWalk]
      cases hs : stepOpt m a with
      | none =>
          rw [rootWalk_of_exit m n2 a hs]
      | some p =>
          exact ih p

/-- Once the walk has exited, larger fuel yields the same account. -/
lemma rootWalk_stable (m : String → Option LedgerAccount) (n j : Nat)
    (a : LedgerAccount) (h : stepOpt m (rootWalk m n a) = none) (hj : n ≤ j) :
    rootWalk m j a = rootWalk m n a := by
  rw [show j = n + (j - n) from by omega, rootWalk_add,
    rootWalk_of_exit m (j - n) (rootWalk m n a) h]

/-- From an exit state, the only reachable account is the state itself. -/
lemma reaches_of_exit (m : String → Option LedgerAccount) (a r : LedgerAccount)
    (ha : stepOpt m a = none) (h : Relation.ReflTransGen (stepRel m) a r) : r = a := by
  rcases Relation.ReflTransGen.cases_head h with heq | ⟨c, hac, -⟩
  · exact heq.symm
  · rw [stepRel, ha] at hac
    exact absurd hac (by simp)

/-- The parent chain is deterministic, so the exit state reached from an
account is unique. -/
lemma reach_exit_unique (m : String → Option LedgerAccount) (a r : LedgerAccount)
    (h : Relation.ReflTransGen (stepRel m) a r) (hr : stepOpt m r = none) :
    ∀ r', Relation.ReflTransGen (stepRel m) a r' → stepOpt m r' = none → r' = r := by
  induction h using Relation.ReflTransGen.head_induction_on with
  | refl =>
      intro r' hr' _
      exact reaches_of_exit m r r' hr hr'
  | head hab _ ih =>
      rename_i x b hxb
      intro r' hr' hr'exit
      rcases Relation.ReflTransGen.cases_head hr' with heq | ⟨c, hxc, hcr'⟩
      · rw [← heq] at hr'exit
        rw [stepRel, hr'exit] at hab
        exact absurd hab (by simp)
      · rw [stepRel] at hab hxc
        rw [hab] at hxc
        have hcb : c = b := by
          exact Option.some_injective _ hxc.symm
        exact ih r' (hcb ▸ hcr') hr'exit

end WalkSoundness

section WalkTermination

/-- Everything the account map returns is an account of the table. -/
lemma buildAccountMap_mem (accounts : List LedgerAccount) (k : String)
    (a : LedgerAccount) (h : buildAccountMap accounts k = some a) : a ∈ accounts := by
  have hgen : ∀ (l : List LedgerAccount) (init : String → Option LedgerAccount),
      (l.foldl (fun m a => fun k => if k = a.id then some a else m k) init) k = some a →
      a ∈ l ∨ init k = some a := by
    intro l
    induction l with
    | nil => intro init h; exact Or.inr h
    | cons b t ih =>
        intro init h
        rcases ih (fun k => if k = b.id then some b else init k) h with hmem | hinit
        · exact Or.inl (List.mem_cons_of_mem b hmem)
        · by_cases hk : k = b.id
          · rw [if_pos hk] at hinit
            exact Or.inl (List.mem_cons.mpr (Or.inl (Option.some_injective _ hinit).symm))
          · rw [if_neg hk] at hinit
            exact Or.inr hinit
  rcases hgen accounts (fun _ => none) h with hmem | hnone
  · exact hmem
  · exact absurd hnone (by simp)

/-- A step of the walk lands on an account of the table. -/
lemma stepRel_mem (accounts : List LedgerAccount) (a b : LedgerAccount)
    (h : stepRel (buildAccountMap accounts) a b) : b ∈ accounts := by
  rw [stepRel, stepOpt] at h
  cases hp : a.parentID with
  | none => rw [hp] at h; simp at h
  | some pid =>
      rw [hp] at h
      by_cases hpid : pid = ""
      · simp [hpid] at h
      · simp only [if_neg hpid] at h
        exact buildAccountMap_mem accounts pid b h

/-- The walk one step further, stepping at the far end. -/
lemma rootWalk_succ_right (m : String → Option LedgerAccount) (n : Nat)
    (a : LedgerAccount) :
    rootWalk m (n + 1) a
      = match stepOpt m (rootWalk m n a) with
        | none => rootWalk m n a
        | some p => p := by
  rw [rootWalk_add m n 1 a, rootWalk]
  cases hs : stepOpt m (rootWalk m n a) with
  | none => rfl
  | some p => rfl

/-- Between two fuels below which the walk never exits, the iterates are
chained by the transitive closure of the parent relation. -/
lemma iterates_transGen (m : String → Option LedgerAccount) (a : LedgerAccount)
    (i j : Nat) (hij : i < j)
    (hstep : ∀ k, k < j → stepOpt m (rootWalk m k a) ≠ none) :
    Relation.TransGen (stepRel m) (rootWalk m i a) (rootWalk m j a) := by
  induction j with
  | zero => omega
  | succ j ih =>
      have hstepj := hstep j (by omega)
      cases hs : stepOpt m (rootWalk m j a) with
      | none => exact absurd hs hstepj
      | some p =>
          have hlast : stepRel m (rootWalk m j a) (rootWalk m (j + 1) a) := by
            rw [stepRel, rootWalk_succ_right, hs]
          by_cases hji : i = j
          · rw [hji]
            exact Relation.TransGen.single hlast
          · have hlt : i < j := by omega
            exact Relation.TransGen.tail
              (ih hlt (fun k hk => hstep k (by omega))) hlast

/-- Every iterate of the walk from a table account stays in the table,
as long as the walk has not run past an exit. -/
lemma rootWalk_mem (accounts : List LedgerAccount) (a : LedgerAccount)
    (ha : a ∈ accounts) (k : Nat)
    (hstep : ∀ j, j < k → stepOpt (buildAccountMap accounts)
        (rootWalk (buildAccountMap accounts) j a) ≠ none) :
    rootWalk (buildAccountMap accounts) k a ∈ accounts := by
  induction k with
  | zero => exact ha
  | succ k ih =>
      have hk := hstep k (by omega)
      cases hs : stepOpt (buildAccountMap accounts)
          (rootWalk (buildAccountMap accounts) k a) with
      | none => exact absurd hs hk
      | some p =>
          have hmem : p ∈ accounts := stepRel_mem accounts _ p hs
          rw [rootWalk_succ_right, hs]
          exact hmem

/-- On an acyclic table the walk reaches an exit state within
`accounts.length` iterations (pigeonhole: otherwise some table account
would lie on a parent-pointer cycle). -/
lemma walk_completes (accounts : List LedgerAccount)
    (hacyc : ∀ a ∈ accounts,
      ¬ Relation.TransGen (stepRel (buildAccountMap accounts)) a a)
    (a : LedgerAccount) (ha : a ∈ accounts) :
    stepOpt (buildAccountMap accounts)
      (rootWalk (buildAccountMap accounts) accounts.length a) = none := by
  set m := buildAccountMap accounts with hm
  set L := accounts.length with hL
  by_contra hne
  have hstep : ∀ k, k ≤ L → stepOpt m (rootWalk m k a) ≠ none := by
    intro k hk hnone
    exact hne (rootWalk_stable m k L a hnone hk ▸ hnone)
  have hmem : ∀ k, k ≤ L + 1 → rootWalk m k a ∈ accounts := by
    intro k hk
    exact rootWalk_mem accounts a ha k (fun j hj => hstep j (by omega))
  have hcard : (accounts.toFinset : Finset LedgerAccount).card
      < (Finset.range (L + 2)).card := by
    rw [Finset.card_range]
    have := List.toFinset_card_le accounts
    omega
  have hmaps : ∀ k ∈ Finset.range (L + 2), rootWalk m k a ∈ accounts.toFinset := by
    intro k hk
    rw [List.mem_toFinset]
    exact hmem k (by
      have := Finset.mem_range.mp hk
      omega)
  obtain ⟨i, hi, j, hj, hij, heq⟩ :=
    Finset.exists_ne_map_eq_of_card_lt_of_maps_to hcard hmaps
  have hiL := Finset.mem_range.mp hi
  have hjL := Finset.mem_range.mp hj
  rcases Nat.lt_or_ge i j with hlt | hge
  · have hcyc := iterates_transGen m a i j hlt
      (fun k hk => hstep k (by omega))
    rw [heq] at hcyc
    exact hacyc (rootWalk m j a) (hmem j (by omega)) hcyc
  · have hlt : j < i := by
      rcases Nat.lt_or_ge j i with h | h
      · exact h
      · exact absurd (Nat.le_antisymm h hge) hij
    have hcyc := iterates_transGen m a j i hlt
      (fun k hk => hstep k (by omega))
    rw [← heq] at hcyc
    exact hacyc (rootWalk m i a) (hmem i (by omega)) hcyc

end WalkTermination

/-- C9: on an acyclic account table the rollup is sound — every account of
the table walks, along the parent-pointer relation, to the unique exit
state of its chain (an account with no resolving parent), and the finished
`rootTotals` figure for a name is the sum of the totals of exactly those
equity entries whose walked root carries that name (the root's own entry
included, since the walk from a parentless account stops at itself). -/
theorem hierarchyAggregator_rollup (accounts : List LedgerAccount)
    (entries : List (String × ℚ))
    (hacyc : ∀ a ∈ accounts,
      ¬ Relation.TransGen (stepRel (buildAccountMap accounts)) a a) :
    (∀ i a, buildAccountMap accounts i = some a →
        Relation.ReflTransGen (stepRel (buildAccountMap accounts)) a
            (rootWalk (buildAccountMap accounts) accounts.length a)
        ∧ stepOpt (buildAccountMap accounts)
            (rootWalk (buildAccountMap accounts) accounts.length a) = none
        ∧ ∀ r, Relation.ReflTransGen (stepRel (buildAccountMap accounts)) a r →
            stepOpt (buildAccountMap accounts) r = none →
            r = rootWalk (buildAccountMap accounts) accounts.length a)
    ∧ ∀ k, rootTotalsGo (buildAccountMap accounts) accounts.length entries k
        = (entries.map (fun p =>
            if equityRootName (buildAccountMap accounts) accounts.length p.1 = some k
            then p.2 else 0)).sum := by
  constructor
  · intro i a hia
    have ha : a ∈ accounts := buildAccountMap_mem accounts i a hia
    have h1 := rootWalk_reaches (buildAccountMap accounts) accounts.length a
    have h2 := walk_completes accounts hacyc a ha
    exact ⟨h1, h2, fun r hr hrexit =>
      reach_exit_unique (buildAccountMap accounts) a _ h1 h2 r hr hrexit⟩
  · intro k
    rw [rootTotalsGo_apply, contribs_filter_sum]

/-- C10: the rollup preserves the total — the values of the finished
`rootTotals` map sum to the family-expense total accumulated over the same
entries (each equity entry is credited to exactly one root name). -/
theorem rollup_preserves_total (accounts : List LedgerAccount)
    (entries : List (String × ℚ))
    (_hacyc : ∀ a ∈ accounts,
      ¬ Relation.TransGen (stepRel (buildAccountMap accounts)) a a) :
    ((rootNames (buildAccountMap accounts) accounts.length entries).map
        (rootTotalsGo (buildAccountMap accounts) accounts.length entries)).sum
      = totalFamilyExpenses (buildAccountMap accounts) entries := by
  have h1 : ((rootNames (buildAccountMap accounts) accounts.length entries).map
        (rootTotalsGo (buildAccountMap accounts) accounts.length entries)).sum
      = ((rootNames (buildAccountMap accounts) accounts.length entries).map (fun k =>
          (((rootContribs (buildAccountMap accounts) accounts.length entries).filter
              (fun p => p.1 = k)).map Prod.snd).sum)).sum := by
    congr 1
    exact List.map_congr_left
      (fun k _ => rootTotalsGo_apply (buildAccountMap accounts) accounts.length entries k)
  rw [h1, rootNames, sum_filter_partition _ _ (List.nodup_dedup _)
      (fun p hp => List.mem_dedup.mpr (List.mem_map_of_mem Prod.fst hp)),
    contribs_snd_sum]

/-- The spec's round-trip table: Root with no parent and two children. -/
def exRoot : LedgerAccount := ⟨"r", "Root", "equity", none⟩

/-- Child1, parent Root. -/
def exChild1 : LedgerAccount := ⟨"c1", "Child1", "equity", some "r"⟩

/-- Child2, parent Root. -/
def exChild2 : LedgerAccount := ⟨"c2", "Child2", "equity", some "r"⟩

/-- The example account table. -/
def exAccounts : List LedgerAccount := [exRoot, exChild1, exChild2]

/-- The example Category Totals enumeration:
Root −100, Child1 −1127.74, Child2 −335.04. -/
def exEntries : List (String × ℚ) := [("r", -100), ("c1", -112774/100), ("c2", -33504/100)]

lemma stepOpt_exRoot : stepOpt (buildAccountMap exAccounts) exRoot = none := by
  decide

lemma stepOpt_exChild1 :
    stepOpt (buildAccountMap exAccounts) exChild1 = some exRoot := by
  decide

lemma stepOpt_exChild2 :
    stepOpt (buildAccountMap exAccounts) exChild2 = some exRoot := by
  decide

/-- The example table's parent graph is acyclic. -/
lemma exAcyclic : ∀ a ∈ exAccounts,
    ¬ Relation.TransGen (stepRel (buildAccountMap exAccounts)) a a := by
  have hroot : ∀ b, ¬ stepRel (buildAccountMap exAccounts) exRoot b := by
    intro b hb
    rw [stepRel, stepOpt_exRoot] at hb
    exact absurd hb (by simp)
  intro a ha
  fin_cases ha
  · intro hcyc
    rcases Relation.TransGen.head'_iff.mp hcyc with ⟨b, hb, -⟩
    exact hroot b hb
  · intro hcyc
    rcases Relation.TransGen.head'_iff.mp hcyc with ⟨b, hb, hrest⟩
    rw [stepRel, stepOpt_exChild1] at hb
    have hbr : b = exRoot := (Option.some_injective _ hb).symm
    rw [hbr] at hrest
    have := reaches_of_exit (buildAccountMap exAccounts) exRoot exChild1
      stepOpt_exRoot hrest
    exact absurd this (by decide)
  · intro hcyc
    rcases Relation.TransGen.head'_iff.mp hcyc with ⟨b, hb, hrest⟩
    rw [stepRel, stepOpt_exChild2] at hb
    have hbr : b = exRoot := (Option.some_injective _ hb).symm
    rw [hbr] at hrest
    have := reaches_of_exit (buildAccountMap exAccounts) exRoot exChild2
      stepOpt_exRoot hrest
    exact absurd this (by decide)

/-- Witness for C9: on the example table, the figure for "Root" combines the
root's own −100 with the children's −1127.74 and −335.04 into −1562.78. -/
theorem hierarchyAggregator_rollup_witness :
    rootTotalsGo (buildAccountMap exAccounts) exAccounts.length exEntries "Root"
      = -156278/100 := by
  have h := (hierarchyAggregator_rollup exAccounts exEntries exAcyclic).2 "Root"
  rw [h]
  have h1 : equityRootName (buildAccountMap exAccounts) exAccounts.length "r"
      = some "Root" := by decide
  have h2 : equityRootName (buildAccountMap exAccounts) exAccounts.length "c1"
      = some "Root" := by decide
  have h3 : equityRootName (buildAccountMap exAccounts) exAccounts.length "c2"
      = some "Root" := by decide
  rw [exEntries, List.map_cons, List.map_cons, List.map_cons, List.map_nil]
  simp only [h1, h2, h3, if_pos rfl]
  norm_num

/-- Witness for C10: on the example table the summed Root Totals equal the
family-expense total, −1562.78. -/
theorem rollup_preserves_total_witness :
    ((rootNames (buildAccountMap exAccounts) exAccounts.length exEntries).map
        (rootTotalsGo (buildAccountMap exAccounts) exAccounts.length exEntries)).sum
      = totalFamilyExpenses (buildAccountMap exAccounts) exEntries
    ∧ totalFamilyExpenses (buildAccountMap exAccounts) exEntries = -156278/100 := by
  refine ⟨rollup_preserves_total exAccounts exEntries exAcyclic, ?_⟩
  have hr : buildAccountMap exAccounts "r" = some exRoot := by decide
  have hc1 : buildAccountMap exAccounts "c1" = some exChild1 := by decide
  have hc2 : buildAccountMap exAccounts "c2" = some exChild2 := by decide
  rw [totalFamilyExpenses, exEntries]
  rw [List.foldl_cons, List.foldl_cons, List.foldl_cons, List.foldl_nil]
  simp only [hr, hc1, hc2, exRoot, exChild1, exChild2]
  norm_num
